import Mathlib

/-!
Verification of the appointment availability & booking engine
(`src/services/schedule_service.py`, `src/db/models.py`,
`src/tools/tools_schedule.py`) against its natural-language specification.

Shallow embedding conventions:
* `datetime` values are modelled as `Int` (seconds since an arbitrary epoch);
  `timedelta(days=n)` is `n * 86400`, `timedelta(minutes=n)` is `n * 60`,
  `timedelta(seconds=n)` is `n`.
* `[start, end)` half-open intervals become the `Interval` structure.  The
  Python attribute `end` is a Lean keyword, so it is spelled `stop` here.
* Database rows become plain records; the database session becomes explicit
  state passing over `DBState`.
* `sorted(..., key=lambda x: x.start)` (Python's stable sort) is modelled by
  `List.insertionSort`, which is also stable, with the same key.
-/

namespace Sched

/-- Embeds `Interval` (schedule_service.py, lines 57-60).  Python's `end`
field is called `stop` because `end` is a Lean keyword. -/
structure Interval where
  start : Int
  stop  : Int
deriving DecidableEq, Repr

/-- Embeds `_overlaps` (schedule_service.py, lines 63-64):
`a.start < b.end and b.start < a.end`. -/
def _overlaps (a b : Interval) : Bool :=
  decide (a.start < b.stop) && decide (b.start < a.stop)

/-- `t` is a point of the half-open interval `i` (`[start, end)` semantics). -/
def memI (t : Int) (i : Interval) : Prop :=
  i.start ≤ t ∧ t < i.stop

instance (t : Int) (i : Interval) : Decidable (memI t i) := by
  unfold memI; infer_instance

/-- Embeds the body of the inner `for f in free` loop of `_subtract`
(schedule_service.py, lines 71-78): the pieces of one free interval `f`
after removing one busy block `b`. -/
def splitOne (b f : Interval) : List Interval :=
  if _overlaps f b then
    (if f.start < b.start then [⟨f.start, b.start⟩] else []) ++
    (if b.stop < f.stop then [⟨b.stop, f.stop⟩] else [])
  else [f]

/-- Embeds one pass of `_subtract`'s outer loop: `next_free` built from
`free` for a single block `b` (schedule_service.py, lines 70-79). -/
def splitByBlock (b : Interval) : List Interval → List Interval
  | [] => []
  | f :: rest => splitOne b f ++ splitByBlock b rest

/-- Embeds the outer `for b in sorted(blocks, ...)` loop of `_subtract`:
fold the block list over the current free list. -/
def subtractFold : List Interval → List Interval → List Interval
  | free, [] => free
  | free, b :: bs => subtractFold (splitByBlock b free) bs

/-- Embeds `sorted(blocks, key=lambda x: x.start)`: a stable sort by
`start` (Python's sort is stable; so is `List.insertionSort`). -/
def sortByStart (l : List Interval) : List Interval :=
  List.insertionSort (fun a b => a.start ≤ b.start) l

/-- Embeds `_subtract` (schedule_service.py, lines 67-80), including the
final `[i for i in free if i.end > i.start]` filter. -/
def _subtract (base : Interval) (blocks : List Interval) : List Interval :=
  (subtractFold [base] (sortByStart blocks)).filter (fun i => decide (i.start < i.stop))

-- ---------------------------------------------------------------------------
-- Lemmas about `_subtract`
-- ---------------------------------------------------------------------------
-- ---------------------------------------------------------------------------
-- `_split_into_slots`
-- ---------------------------------------------------------------------------

/-- Embeds the `while cur + duration <= iv.end` loop of `_split_into_slots`
(schedule_service.py, lines 86-91).  The Boolean result records whether the
early `return out` (global limit reached) fired.  The `fuel` argument is a
Lean artifact bounding the iteration count; `splitFuel` below always
provides enough fuel when the duration is positive (with a non-positive
duration the Python loop does not terminate). -/
def splitLoop (d ivEnd limit : Int) : Nat → Int → List Interval → List Interval × Bool
  | 0, _, out => (out, false)
  | fuel + 1, cur, out =>
    if cur + d ≤ ivEnd then
      let out2 := out ++ [⟨cur, cur + d⟩]
      if limit ≤ (out2.length : Int) then (out2, true)
      else splitLoop d ivEnd limit fuel (cur + d) out2
    else (out, false)

/-- Fuel bound for `splitLoop`: with `d ≥ 1` the loop runs at most
`iv.stop - iv.start` times. -/
def splitFuel (iv : Interval) : Nat := (iv.stop - iv.start).toNat + 1

/-- Embeds the `for iv in intervals` loop of `_split_into_slots`
(schedule_service.py, lines 84-92). -/
def splitGo (d limit : Int) : List Interval → List Interval → List Interval
  | [], out => out
  | iv :: rest, out =>
    let r := splitLoop d iv.stop limit (splitFuel iv) iv.start out
    if r.2 then r.1 else splitGo d limit rest r.1

/-- Embeds `_split_into_slots` (schedule_service.py, lines 83-92). -/
def _split_into_slots (intervals : List Interval) (d limit : Int) : List Interval :=
  splitGo d limit intervals []

/-- The consecutive `duration`-length slots emitted from cursor `cur`:
`⟨cur, cur+d⟩, ⟨cur+d, cur+2d⟩, …` (`n` of them, back-to-back). -/
def slotsFrom (cur d : Int) : Nat → List Interval
  | 0 => []
  | n + 1 => ⟨cur, cur + d⟩ :: slotsFrom (cur + d) d n
-- ---------------------------------------------------------------------------
-- Data model (db/models.py).  UUIDs are modelled as opaque `Nat` identifiers.
-- Columns that no claim mentions (address snapshots, google_event_id,
-- hangout_link, created_at, …) are omitted from the records.
-- ---------------------------------------------------------------------------

/-- Embeds `AppointmentStatus` (db/models.py, lines 35-38). -/
inductive AppointmentStatus where
  | scheduled
  | completed
  | canceled
deriving DecidableEq, Repr

/-- Embeds `RequestPriority` (db/models.py, lines 40-43). -/
inductive RequestPriority where
  | P1
  | P2
  | P3
deriving DecidableEq, Repr

/-- Embeds the `users` table (db/models.py, lines 51-57). -/
structure UserR where
  id : Nat
  full_name : String
  phone : String
  email : Option String
deriving DecidableEq, Repr

/-- Embeds the `techs` table (db/models.py, lines 80-88). -/
structure TechR where
  id : Nat
  timezone : String
  active : Bool
  google_calendar_id : Option String
deriving DecidableEq, Repr

/-- Embeds the `skills` table (db/models.py, lines 90-94). -/
structure SkillR where
  id : Nat
  name : String
deriving DecidableEq, Repr

/-- Embeds the `tech_skills` association table (db/models.py, lines 96-99). -/
structure TechSkillR where
  tech_id : Nat
  skill_id : Nat
deriving DecidableEq, Repr

/-- Embeds the `tech_shifts` table (db/models.py, lines 101-106). -/
structure TechShiftR where
  tech_id : Nat
  start_ts : Int
  end_ts : Int
deriving DecidableEq, Repr

/-- Embeds the `appointments` table (db/models.py, lines 108-139). -/
structure ApptR where
  id : Nat
  appointment_no : Nat
  user_id : Nat
  tech_id : Nat
  start_ts : Int
  end_ts : Int
  priority : RequestPriority
  status : AppointmentStatus
  request_text : Option String
deriving DecidableEq, Repr

/-- Embeds the `holds` table (db/models.py, lines 141-149). -/
structure HoldR where
  id : Nat
  tech_id : Nat
  user_id : Option Nat
  start_ts : Int
  end_ts : Int
  expires_at : Int
  request_text : Option String
deriving DecidableEq, Repr

/-- The database state: the rows of the tables the scheduling service
touches, plus the fresh-id supply (`next_id` stands for `uuid4`) and the
`Identity(start=0)` sequence backing `Appointment.appointment_no`.
The schema created by `init_db` (`Base.metadata.create_all`) carries no
range-exclusion constraint on `holds` or `appointments` — the only
constraints are primary keys, foreign keys and the listed unique columns;
`Index(...)` calls create plain (non-constraint) indexes. -/
structure DBState where
  users : List UserR
  techs : List TechR
  skills : List SkillR
  tech_skills : List TechSkillR
  tech_shifts : List TechShiftR
  appointments : List ApptR
  holds : List HoldR
  next_id : Nat
  next_appointment_no : Nat
deriving Repr

/-- Embeds `SlotSuggestion` (schedule_service.py, lines 96-100). -/
structure SlotSuggestion where
  tech_id : Nat
  start : Int
  stop : Int
  source : String
deriving DecidableEq, Repr

/-- SQL `LIKE` pattern matching on character lists (`likeGo fuel pattern
text`): `%` matches any (possibly empty) character sequence, `_` matches
exactly one character, a backslash escapes the following pattern character
(PostgreSQL's default escape; a lone trailing backslash, which PostgreSQL
rejects, is treated as a literal).  The `fuel` argument is a Lean artifact
bounding the recursion: every recursive call shrinks `pattern.length +
text.length`, so `ilikeMatch` below always supplies enough fuel and the
fuel-exhausted `false` is unreachable. -/
def likeGo : Nat → List Char → List Char → Bool
  | 0, _, _ => false
  | fuel + 1, ps, ts =>
    match ps, ts with
    | [], [] => true
    | [], _ :: _ => false
    | '%' :: ps', ts =>
      likeGo fuel ps' ts ||
        (match ts with
         | [] => false
         | _ :: ts' => likeGo fuel ('%' :: ps') ts')
    | '_' :: ps', ts =>
      (match ts with
       | [] => false
       | _ :: ts' => likeGo fuel ps' ts')
    | '\\' :: c :: ps', ts =>
      (match ts with
       | [] => false
       | t :: ts' => t == c && likeGo fuel ps' ts')
    | c :: ps', ts =>
      (match ts with
       | [] => false
       | t :: ts' => t == c && likeGo fuel ps' ts')

/-- Models SQLAlchemy `column.ilike(pattern)` (PostgreSQL `ILIKE`): SQL
`LIKE` pattern matching of `pat` against `value` after lowercasing both —
the service passes the caller's raw skill string as the pattern, so `%`
and `_` in it act as wildcards. -/
def ilikeMatch (value pat : String) : Bool :=
  likeGo (pat.data.length + value.data.length + 1)
    (pat.data.map Char.toLower) (value.data.map Char.toLower)

/-- The lowercased characters of a string (case-insensitive *exact*
comparison is equality of `lowerChars`). -/
def lowerChars (s : String) : List Char :=
  s.data.map Char.toLower

/-- Stable sort of shift rows by `start_ts` (the `ORDER BY start_ts` of the
shift query). -/
def sortShifts (l : List TechShiftR) : List TechShiftR :=
  List.insertionSort (fun a b => a.start_ts ≤ b.start_ts) l

/-- Stable sort of suggestions by `start` (`results.sort(key=...)`,
schedule_service.py line 238; Python's sort is stable). -/
def sortSuggestions (l : List SlotSuggestion) : List SlotSuggestion :=
  List.insertionSort (fun a b => a.start ≤ b.start) l

/-- Embeds the `for tid in tech_ids` slot-generation loop of
`get_available_times` (schedule_service.py, lines 211-236), with the
pre-loaded shift rows and the per-technician busy blocks passed in. -/
def availLoop (shifts : List TechShiftR) (busyOf : TechR → List Interval)
    (start_h end_h duration limit : Int) (source : String) :
    List TechR → List SlotSuggestion → List SlotSuggestion
  | [], results => results
  | t :: rest, results =>
    let t_shifts := shifts.filter (fun sh => sh.tech_id == t.id)
    if t_shifts.isEmpty then
      availLoop shifts busyOf start_h end_h duration limit source rest results
    else
      let base_intervals := t_shifts.map
        (fun sh => (⟨max sh.start_ts start_h, min sh.end_ts end_h⟩ : Interval))
      let blocks := busyOf t
      let free := base_intervals.foldr (fun base acc => _subtract base blocks ++ acc) []
      let slots := _split_into_slots (sortByStart free) duration
        (max 0 (limit - (results.length : Int)))
      let results2 := results ++ slots.map
        (fun s => (⟨t.id, s.start, s.stop, source⟩ : SlotSuggestion))
      if limit ≤ (results2.length : Int) then results2
      else availLoop shifts busyOf start_h end_h duration limit source rest results2

/-- Embeds `get_available_times` (schedule_service.py, lines 103-239).
The optional Google collaborator `freebusy_batch` is modelled as the pure
function `gcal : String → List Interval` giving each calendar's busy
blocks in the queried window (`_freebusy`, lines 241-243, returns `{}` for
an empty id list — equivalent to `gcal` never being consulted); `now` is
the single `datetime.now(timezone.utc)` the function takes. -/
def get_available_times (db : DBState) (gcal : String → List Interval)
    (now : Int) (skill : String) (duration_min : Int)
    (priority : RequestPriority) (date_from date_to : Option Int)
    (limit : Int) (respect_google_busy : Bool) : List SlotSuggestion :=
  if duration_min ≤ 0 ∨ limit ≤ 0 then []
  else
    let start_h := date_from.getD now
    let horizon_days : Int :=
      if priority = .P1 then 1 else if priority = .P2 then 3 else 7
    let end_h := date_to.getD (start_h + horizon_days * 86400)
    match db.skills.find? (fun s => ilikeMatch s.name skill) with
    | none => []
    | some skill_row =>
      let tech_rows := db.techs.filter (fun t =>
        db.tech_skills.any (fun ts => ts.tech_id == t.id && ts.skill_id == skill_row.id)
          && t.active)
      if tech_rows.isEmpty then []
      else
        let tech_ids := tech_rows.map (·.id)
        let shifts := sortShifts (db.tech_shifts.filter (fun sh =>
          tech_ids.contains sh.tech_id && start_h < sh.end_ts && sh.start_ts < end_h))
        if shifts.isEmpty then []
        else
          let appts := db.appointments.filter (fun a =>
            tech_ids.contains a.tech_id && a.status ≠ AppointmentStatus.canceled
              && start_h < a.end_ts && a.start_ts < end_h)
          let holds := db.holds.filter (fun h =>
            tech_ids.contains h.tech_id && now < h.expires_at
              && start_h < h.end_ts && h.start_ts < end_h)
          let source := if respect_google_busy then "db+google" else "db"
          let busyOf : TechR → List Interval := fun t =>
            ((appts.filter (fun a => a.tech_id == t.id)).map
              (fun a => (⟨a.start_ts, a.end_ts⟩ : Interval)))
            ++ ((holds.filter (fun h => h.tech_id == t.id)).map
              (fun h => (⟨h.start_ts, h.end_ts⟩ : Interval)))
            ++ (if respect_google_busy then
                  match t.google_calendar_id with
                  | some cid => gcal cid
                  | none => []
                else [])
          let duration := duration_min * 60
          sortSuggestions
            (availLoop shifts busyOf start_h end_h duration limit source tech_rows [])



/-- Embeds `get_nearest_available_time` (tools/tools_schedule.py, lines
54-108), after parameter parsing: `skill` is overwritten with the literal
`"drain"` (line 72, "preserve original override"), `dur = max(1,
duration_min)`, the window is the fixed 7 days from `after` (or now), the
query limit is 200, and the earliest slot of the sorted result is returned
(`none` models the `nearest_slot: None` no-availability answer). -/
def get_nearest_available_time (db : DBState) (gcal : String → List Interval)
    (now : Int) (skill : String) (duration_min : Int) (pr : RequestPriority)
    (after : Option Int) (respect_google_busy : Bool) : Option SlotSuggestion :=
  let skill := "drain"
  let dur := max 1 duration_min
  let start_from := after.getD now
  let end_to := start_from + 7 * 86400
  let slots := get_available_times db gcal now skill dur pr (some start_from)
    (some end_to) 200 respect_google_busy
  if slots.isEmpty then none
  else (sortSuggestions slots).head?

-- ---------------------------------------------------------------------------
-- Error taxonomy and state-changing operations
-- ---------------------------------------------------------------------------

/-- The spec's error taxonomy (§7).  The Python service raises
`RuntimeError` with a message; the messages map onto this taxonomy:
"User/Tech/Appointment not found" → `notFound`; "Hold conflicts with
existing booking/hold"/"Appointment conflict" → `conflict`; "end_date must
be >= start_date"/"end_time must be after start_time" → `invalidRange`;
"No availability found" → `noAvailability`. -/
inductive Err where
  | notFound
  | conflict
  | invalidRange
  | noAvailability
deriving DecidableEq, Repr

/-- The dict returned by `hold_slot` (schedule_service.py, line 294). -/
structure HoldResult where
  id : Nat
  tech_id : Nat
  start : Int
  stop : Int
  expires_at : Int
deriving DecidableEq, Repr

/-- Embeds `hold_slot` (schedule_service.py, lines 246-294).
`expires_at = min(end, now + timedelta(seconds=max(1, ttl_seconds)))`.
The `except Exception` branch is modelled by the `dbFault` flag: the schema
created from db/models.py has no overlap-exclusion constraint on `holds`,
so the insert raises only on an external database fault (connection error,
foreign-key violation); in that case the transaction is rolled back and the
state is unchanged.  The optional tentative-calendar side effect writes no
database state and is omitted. -/
def hold_slot (st : DBState) (now : Int) (tech_id : Nat) (user_id : Option Nat)
    (start stop : Int) (ttl_seconds : Int) (request_text : Option String)
    (dbFault : Bool) : DBState × Except Err HoldResult :=
  let expires_at := min stop (now + max 1 ttl_seconds)
  if dbFault then (st, Except.error Err.conflict)
  else
    let h : HoldR := ⟨st.next_id, tech_id, user_id, start, stop, expires_at, request_text⟩
    ({ st with holds := st.holds ++ [h], next_id := st.next_id + 1 },
     Except.ok ⟨h.id, tech_id, start, stop, expires_at⟩)

/-- Embeds `create_meeting` (schedule_service.py, lines 332-402): look up
the user, then the technician (each missing one raises "not found"), then
insert the appointment; `appointment_no` comes from the storage sequence
(`next_appointment_no`).  `dbFault` models the `except Exception` branch of
the insert (rolled back, state unchanged).  The best-effort calendar mirror
only touches the omitted `google_event_id`/`hangout_link` columns. -/
def create_meeting (st : DBState) (user_id tech_id : Nat) (start stop : Int)
    (priority : RequestPriority) (request_text : Option String)
    (dbFault : Bool) : DBState × Except Err ApptR :=
  match st.users.find? (fun u => u.id == user_id) with
  | none => (st, Except.error Err.notFound)
  | some u =>
    match st.techs.find? (fun t => t.id == tech_id) with
    | none => (st, Except.error Err.notFound)
    | some t =>
      if dbFault then (st, Except.error Err.conflict)
      else
        let a : ApptR := ⟨st.next_id, st.next_appointment_no, u.id, t.id, start, stop,
          priority, AppointmentStatus.scheduled, request_text⟩
        ({ st with appointments := st.appointments ++ [a],
                   next_id := st.next_id + 1,
                   next_appointment_no := st.next_appointment_no + 1 },
         Except.ok a)

-- ---------------------------------------------------------------------------
-- Reference resolution and `read_meeting`
-- ---------------------------------------------------------------------------

/-- Models Python `str.strip()` on the character list of a string. -/
def pyStrip (cs : List Char) : List Char :=
  ((cs.dropWhile Char.isWhitespace).reverse.dropWhile Char.isWhitespace).reverse

/-- The value of a non-empty all-digit character list (`int(m.group(1))`
after the regex `\d+` matched); `none` otherwise.  (`\d` is modelled as the
ASCII digits.) -/
def digitsVal (cs : List Char) : Option Nat :=
  if cs ≠ [] ∧ cs.all Char.isDigit then
    some (cs.foldl (fun n c => n * 10 + (c.toNat - 48)) 0)
  else none

/-- Models `re.fullmatch(r"#?(\d+)", s)` followed by `int(m.group(1))`
(schedule_service.py, lines 309-312): an optional leading `'#'`, then one
or more digits, nothing else. -/
def parseApptNo : List Char → Option Nat
  | '#' :: rest => digitsVal rest
  | cs => digitsVal cs

/-- The numeric-reference branch of `_resolve_appointment` (lines 309-315):
parse a public sequence number, then look the appointment up by
`appointment_no`. -/
def lookupByNo (appts : List ApptR) (s : List Char) : Option ApptR :=
  match parseApptNo s with
  | some number => appts.find? (fun a => a.appointment_no == number)
  | none => none

/-- The UUID fallback branch of `_resolve_appointment` (lines 320-327):
`uuid.UUID(s)` is an external parser, abstracted as `uuidParse` (returns
the primary key the string denotes, if it is a valid UUID); then a
primary-key lookup (`db.get`). -/
def lookupByUuid (appts : List ApptR) (uuidParse : List Char → Option Nat)
    (s : List Char) : Option ApptR :=
  match uuidParse s with
  | some u => appts.find? (fun a => a.id == u)
  | none => none

/-- Embeds `_resolve_appointment` (schedule_service.py, lines 298-329):
strip the reference, prefer the public-number lookup, fall back to the
UUID lookup, `none` if both fail. -/
def _resolve_appointment (appts : List ApptR) (uuidParse : List Char → Option Nat)
    (ref : String) : Option ApptR :=
  let s := pyStrip ref.data
  match lookupByNo appts s with
  | some appt => some appt
  | none => lookupByUuid appts uuidParse s

/-- Embeds `read_meeting` (schedule_service.py, lines 405-428): resolve the
reference, raise "Appointment not found" when resolution fails, otherwise
return the appointment row (the returned dict is a field-by-field copy). -/
def read_meeting (appts : List ApptR) (uuidParse : List Char → Option Nat)
    (appointment_no : String) : Except Err ApptR :=
  match _resolve_appointment appts uuidParse appointment_no with
  | none => Except.error Err.notFound
  | some appt => Except.ok appt

-- ---------------------------------------------------------------------------
-- Bulk shift publishing
-- ---------------------------------------------------------------------------

/-- Embeds `_local_range_to_utc` (schedule_service.py, lines 544-548).
`zoneinfo` timezone conversion is an external collaborator, abstracted as
`localToUtc (day, secondsOfDay, tz)`: the UTC instant of the local
wall-clock time `secondsOfDay` on proleptic-ordinal day `day` in zone
`tz`. -/
def _local_range_to_utc (localToUtc : Nat → Nat → String → Int) (d : Nat)
    (start_t end_t : Nat) (tz : String) : Int × Int :=
  (localToUtc d start_t tz, localToUtc d end_t tz)

/-- Python `date.weekday()` on the proleptic-Gregorian ordinal: ordinal 1
(0001-01-01) is a Monday (= 0). -/
def weekday (d : Nat) : Nat := (d + 6) % 7

/-- The `weekdays is None or cur.weekday() in weekdays` test
(schedule_service.py, line 577). -/
def weekdayMatch (weekdays : Option (List Nat)) (d : Nat) : Bool :=
  match weekdays with
  | none => true
  | some ws => ws.contains (weekday d)

/-- Embeds the `while cur <= end_date` loop of
`publish_availability_for_range` (schedule_service.py, lines 574-591); the
`fuel` argument counts the remaining days (`end_date + 1 - cur`). -/
def publishGo (localToUtc : Nat → Nat → String → Int) (t : TechR)
    (start_time end_time : Nat) (weekdays : Option (List Nat))
    (clear_overlaps : Bool) : Nat → Nat → DBState → Nat → DBState × Nat
  | 0, _, st, created => (st, created)
  | fuel + 1, cur, st, created =>
    if weekdayMatch weekdays cur then
      let se := _local_range_to_utc localToUtc cur start_time end_time t.timezone
      let st1 := if clear_overlaps then
          { st with tech_shifts := st.tech_shifts.filter (fun sh =>
              !(sh.tech_id == t.id && se.1 < sh.end_ts && sh.start_ts < se.2)) }
        else st
      let st2 := { st1 with tech_shifts := st1.tech_shifts ++ [⟨t.id, se.1, se.2⟩] }
      publishGo localToUtc t start_time end_time weekdays clear_overlaps
        fuel (cur + 1) st2 (created + 1)
    else
      publishGo localToUtc t start_time end_time weekdays clear_overlaps
        fuel (cur + 1) st created

/-- Embeds `publish_availability_for_range` (schedule_service.py, lines
551-594).  Dates are proleptic ordinals (`Nat`), local times of day are
seconds (`Nat`; Python compares `time` objects, which orders the same
way).  The two range checks run before the database session opens. -/
def publish_availability_for_range (st : DBState)
    (localToUtc : Nat → Nat → String → Int) (tech_id : Nat)
    (start_date end_date : Nat) (start_time end_time : Nat)
    (weekdays : Option (List Nat)) (clear_overlaps : Bool) :
    DBState × Except Err Nat :=
  if end_date < start_date then (st, Except.error Err.invalidRange)
  else if end_time ≤ start_time then (st, Except.error Err.invalidRange)
  else
    match st.techs.find? (fun t => t.id == tech_id) with
    | none => (st, Except.error Err.notFound)
    | some t =>
      let r := publishGo localToUtc t start_time end_time weekdays clear_overlaps
        (end_date + 1 - start_date) start_date st 0
      (r.1, Except.ok r.2)

/-- The days the publish loop creates a shift for: the `fuel` consecutive
days starting at `cur` that match the weekday filter. -/
def matchingDays (weekdays : Option (List Nat)) : Nat → Nat → List Nat
  | _, 0 => []
  | cur, fuel + 1 =>
    (if weekdayMatch weekdays cur then [cur] else []) ++
      matchingDays weekdays (cur + 1) fuel

-- ---------------------------------------------------------------------------
-- The §3 storage invariant, and concrete environments
-- ---------------------------------------------------------------------------

/-- The busy intervals of one technician: live holds (`expires_at > now`)
and non-canceled appointments. -/
def techBusyIntervals (st : DBState) (now : Int) (tid : Nat) : List Interval :=
  ((st.holds.filter (fun h => h.tech_id == tid && now < h.expires_at)).map
    (fun h => (⟨h.start_ts, h.end_ts⟩ : Interval)))
  ++ ((st.appointments.filter
        (fun a => a.tech_id == tid && a.status ≠ AppointmentStatus.canceled)).map
    (fun a => (⟨a.start_ts, a.end_ts⟩ : Interval)))

/-- Spec §3 invariant: for every technician, no two of its live holds and
non-canceled appointments overlap. -/
def noOverlapInvariant (st : DBState) (now : Int) : Prop :=
  ∀ t ∈ st.techs,
    (techBusyIntervals st now t.id).Pairwise (fun i j => _overlaps i j = false)

instance (st : DBState) (now : Int) : Decidable (noOverlapInvariant st now) := by
  unfold noOverlapInvariant; infer_instance

/-- A Google collaborator that reports no busy blocks. -/
def gcalEmpty : String → List Interval := fun _ => []

/-- One active technician (id 0) holding skill "plumbing" (id 0), with one
two-hour shift `[0, 7200)`; no users, appointments or holds. -/
def dbPlumbing : DBState :=
  { users := [], techs := [⟨0, "UTC", true, none⟩], skills := [⟨0, "plumbing"⟩],
    tech_skills := [⟨0, 0⟩], tech_shifts := [⟨0, 0, 7200⟩], appointments := [],
    holds := [], next_id := 1, next_appointment_no := 0 }

/-- The same environment with the skill named "drain" instead. -/
def dbDrain : DBState :=
  { users := [], techs := [⟨0, "UTC", true, none⟩], skills := [⟨0, "drain"⟩],
    tech_skills := [⟨0, 0⟩], tech_shifts := [⟨0, 0, 7200⟩], appointments := [],
    holds := [], next_id := 1, next_appointment_no := 0 }

/-- One user (id 0) and one active technician (id 0); empty schedule. -/
def dbOneUserOneTech : DBState :=
  { users := [⟨0, "Alice Doe", "+15550000000", none⟩],
    techs := [⟨0, "UTC", true, none⟩], skills := [], tech_skills := [],
    tech_shifts := [], appointments := [], holds := [], next_id := 1,
    next_appointment_no := 0 }

/-- A UUID parser that accepts nothing (no reference is a valid UUID). -/
def uuidParseNone : List Char → Option Nat := fun _ => none

/-- A sample appointment row: internal id 7, public number 5. -/
def apptSample : ApptR :=
  ⟨7, 5, 0, 0, 0, 3600, RequestPriority.P3, AppointmentStatus.scheduled, none⟩

/-- A concrete timezone-conversion collaborator (a fixed zero-offset zone):
day `d`, local second-of-day `s` ↦ `d * 86400 + s`. -/
def localToUtcFixed : Nat → Nat → String → Int :=
  fun d s _ => (d : Int) * 86400 + (s : Int)

instance : IsTotal SlotSuggestion (fun a b => a.start ≤ b.start) :=
  ⟨fun a b => le_total a.start b.start⟩

instance : IsTrans SlotSuggestion (fun a b => a.start ≤ b.start) :=
  ⟨fun _ _ _ h1 h2 => le_trans h1 h2⟩

-- ---------------------------------------------------------------------------
-- Theorems
-- ---------------------------------------------------------------------------

theorem mem_splitOne_iff (b f : Interval) (t : Int) :
    (∃ i ∈ splitOne b f, memI t i) ↔ memI t f ∧ ¬ memI t b := by
  unfold splitOne
  by_cases hov : _overlaps f b
  · simp only [hov, if_true]
    unfold _overlaps at hov
    simp only [Bool.and_eq_true, decide_eq_true_eq] at hov
    constructor
    · rintro ⟨i, hi, hmem⟩
      rcases List.mem_append.mp hi with h1 | h2
      · have hfs : f.start < b.start := by
          by_contra hc
          simp [hc] at h1
        simp [hfs] at h1
        subst h1
        unfold memI at hmem ⊢
        constructor
        · exact ⟨hmem.1, lt_trans hmem.2 hov.2⟩
        · intro hb; exact absurd hb.1 (not_le.mpr hmem.2)
      · have hbe : b.stop < f.stop := by
          by_contra hc
          simp [hc] at h2
        simp [hbe] at h2
        subst h2
        unfold memI at hmem ⊢
        constructor
        · exact ⟨le_trans (le_of_lt hov.1) hmem.1, hmem.2⟩
        · intro hb; exact absurd hmem.1 (not_le.mpr hb.2)
    · rintro ⟨hf, hnb⟩
      unfold memI at hf hnb ⊢
      rcases not_and_or.mp hnb with hlt | hge
      · push_neg at hlt
        have hfs : f.start < b.start := lt_of_le_of_lt hf.1 hlt
        refine ⟨⟨f.start, b.start⟩, ?_, hf.1, hlt⟩
        simp [hfs]
      · push_neg at hge
        have hbe : b.stop < f.stop := lt_of_le_of_lt hge hf.2
        refine ⟨⟨b.stop, f.stop⟩, ?_, hge, hf.2⟩
        simp [hbe]
  · simp only [hov, if_false]
    unfold _overlaps at hov
    simp only [Bool.and_eq_true, decide_eq_true_eq, not_and_or, not_lt] at hov
    constructor
    · rintro ⟨i, hi, hmem⟩
      simp at hi; subst hi
      refine ⟨hmem, ?_⟩
      unfold memI at hmem ⊢
      rcases hov with h | h
      · intro hb; exact absurd (lt_of_lt_of_le hb.2 h) (not_lt.mpr hmem.1)
      · intro hb; exact absurd (lt_of_lt_of_le hmem.2 h) (not_lt.mpr hb.1)
    · rintro ⟨hf, _⟩; exact ⟨f, by simp, hf⟩

theorem mem_splitByBlock_iff (b : Interval) (free : List Interval) (t : Int) :
    (∃ i ∈ splitByBlock b free, memI t i) ↔ (∃ i ∈ free, memI t i) ∧ ¬ memI t b := by
  induction free with
  | nil => simp [splitByBlock]
  | cons f rest ih =>
    unfold splitByBlock
    constructor
    · rintro ⟨i, hi, hmem⟩
      rcases List.mem_append.mp hi with h1 | h2
      · have := (mem_splitOne_iff b f t).mp ⟨i, h1, hmem⟩
        exact ⟨⟨f, by simp, this.1⟩, this.2⟩
      · have := ih.mp ⟨i, h2, hmem⟩
        obtain ⟨⟨j, hj, hjm⟩, hnb⟩ := this
        exact ⟨⟨j, by simp [hj], hjm⟩, hnb⟩
    · rintro ⟨⟨i, hi, hmem⟩, hnb⟩
      rcases List.mem_cons.mp hi with h1 | h2
      · subst h1
        obtain ⟨j, hj, hjm⟩ := (mem_splitOne_iff b i t).mpr ⟨hmem, hnb⟩
        exact ⟨j, List.mem_append.mpr (Or.inl hj), hjm⟩
      · obtain ⟨j, hj, hjm⟩ := ih.mpr ⟨⟨i, h2, hmem⟩, hnb⟩
        exact ⟨j, List.mem_append.mpr (Or.inr hj), hjm⟩

theorem mem_subtractFold_iff (bs free : List Interval) (t : Int) :
    (∃ i ∈ subtractFold free bs, memI t i) ↔
      (∃ i ∈ free, memI t i) ∧ ∀ b ∈ bs, ¬ memI t b := by
  induction bs generalizing free with
  | nil => simp [subtractFold]
  | cons b rest ih =>
    unfold subtractFold
    rw [ih, mem_splitByBlock_iff]
    constructor
    · rintro ⟨⟨hmem, hnb⟩, hrest⟩
      refine ⟨hmem, ?_⟩
      intro b' hb'
      rcases List.mem_cons.mp hb' with h | h
      · subst h; exact hnb
      · exact hrest b' h
    · rintro ⟨hmem, hall⟩
      exact ⟨⟨hmem, hall b (by simp)⟩, fun b' hb' => hall b' (by simp [hb'])⟩

/-- Every piece produced by `splitOne` lies inside (endpoint-wise) the free
interval it came from. -/
theorem splitOne_shrinks {b f i : Interval} (hi : i ∈ splitOne b f) :
    f.start ≤ i.start ∧ i.stop ≤ f.stop := by
  unfold splitOne at hi
  by_cases hov : _overlaps f b
  · simp only [hov, if_true] at hi
    unfold _overlaps at hov
    simp only [Bool.and_eq_true, decide_eq_true_eq] at hov
    rcases List.mem_append.mp hi with h1 | h2
    · have hfs : f.start < b.start := by
        by_contra hc; simp [hc] at h1
      simp [hfs] at h1; subst h1
      exact ⟨le_refl _, le_of_lt hov.2⟩
    · have hbe : b.stop < f.stop := by
        by_contra hc; simp [hc] at h2
      simp [hbe] at h2; subst h2
      exact ⟨le_of_lt hov.1, le_refl _⟩
  · simp only [hov, if_false] at hi
    simp at hi; subst hi; exact ⟨le_refl _, le_refl _⟩

theorem mem_splitByBlock {b : Interval} {free : List Interval} {i : Interval}
    (hi : i ∈ splitByBlock b free) : ∃ f ∈ free, i ∈ splitOne b f := by
  induction free with
  | nil => simp [splitByBlock] at hi
  | cons f rest ih =>
    unfold splitByBlock at hi
    rcases List.mem_append.mp hi with h1 | h2
    · exact ⟨f, by simp, h1⟩
    · obtain ⟨g, hg, hig⟩ := ih h2
      exact ⟨g, by simp [hg], hig⟩

/-- `_overlaps` is monotone under endpoint-wise shrinking of both sides. -/
theorem overlaps_mono {i f j g : Interval}
    (h1 : f.start ≤ i.start ∧ i.stop ≤ f.stop)
    (h2 : g.start ≤ j.start ∧ j.stop ≤ g.stop)
    (hov : _overlaps i j = true) : _overlaps f g = true := by
  unfold _overlaps at hov ⊢
  simp only [Bool.and_eq_true, decide_eq_true_eq] at hov ⊢
  omega

/-- No piece produced by `splitOne b f` overlaps the removed block `b`. -/
theorem splitOne_no_overlap {b f i : Interval} (hi : i ∈ splitOne b f) :
    _overlaps i b = false := by
  unfold splitOne at hi
  by_cases hov : _overlaps f b
  · simp only [hov, if_true] at hi
    rcases List.mem_append.mp hi with h1 | h2
    · have hfs : f.start < b.start := by
        by_contra hc; simp [hc] at h1
      simp [hfs] at h1; subst h1
      unfold _overlaps; simp
    · have hbe : b.stop < f.stop := by
        by_contra hc; simp [hc] at h2
      simp [hbe] at h2; subst h2
      unfold _overlaps; simp
  · simp only [hov, if_false] at hi
    simp at hi; subst hi
    exact Bool.eq_false_iff.mpr hov

theorem subtractFold_shrinks {bs free : List Interval} {i : Interval}
    (hi : i ∈ subtractFold free bs) :
    ∃ f ∈ free, f.start ≤ i.start ∧ i.stop ≤ f.stop := by
  induction bs generalizing free with
  | nil => exact ⟨i, hi, le_refl _, le_refl _⟩
  | cons b rest ih =>
    unfold subtractFold at hi
    obtain ⟨f', hf', hsh⟩ := ih hi
    obtain ⟨f, hf, hif⟩ := mem_splitByBlock hf'
    have := splitOne_shrinks hif
    exact ⟨f, hf, le_trans this.1 hsh.1, le_trans hsh.2 this.2⟩

/-- After the fold has processed a block list, no remaining free piece
overlaps any processed block. -/
theorem subtractFold_no_overlap {bs free : List Interval} {i b : Interval}
    (hb : b ∈ bs) (hi : i ∈ subtractFold free bs) : _overlaps i b = false := by
  induction bs generalizing free with
  | nil => simp at hb
  | cons b0 rest ih =>
    unfold subtractFold at hi
    rcases List.mem_cons.mp hb with h | h
    · subst h
      obtain ⟨f', hf', hsh⟩ := subtractFold_shrinks hi
      obtain ⟨f, _, hif⟩ := mem_splitByBlock hf'
      have hno := splitOne_no_overlap hif
      have hsh2 := splitOne_shrinks hif
      by_contra hc
      have hov : _overlaps i b = true := by
        cases hov : _overlaps i b
        · exact absurd hov hc
        · rfl
      have : _overlaps f' b = true :=
        overlaps_mono ⟨hsh.1, hsh.2⟩ ⟨le_refl _, le_refl _⟩ hov
      rw [this] at hno; exact Bool.true_eq_false.mp hno
    · exact ih h hi

/-- Splitting by a well-formed block preserves pairwise non-overlap of the
free list (the two pieces of a split never overlap because the block is
nonempty). -/
theorem splitByBlock_pairwise {b : Interval} (hb : b.start < b.stop)
    {free : List Interval}
    (hp : free.Pairwise (fun i j => _overlaps i j = false)) :
    (splitByBlock b free).Pairwise (fun i j => _overlaps i j = false) := by
  induction free with
  | nil => simp [splitByBlock]
  | cons f rest ih =>
    rw [List.pairwise_cons] at hp
    unfold splitByBlock
    rw [List.pairwise_append]
    refine ⟨?_, ih hp.2, ?_⟩
    · -- the at-most-two pieces of a single split are pairwise non-overlapping
      unfold splitOne
      by_cases hov : _overlaps f b
      · simp only [hov, if_true]
        by_cases hfs : f.start < b.start <;> by_cases hbe : b.stop < f.stop <;>
          · simp [hfs, hbe, _overlaps]
            try omega
      · simp [hov]
    · intro x hx y hy
      obtain ⟨g, hg, hyg⟩ := mem_splitByBlock hy
      have hxsh := splitOne_shrinks hx
      have hysh := splitOne_shrinks hyg
      have hfg : _overlaps f g = false := hp.1 g hg
      by_contra hc
      have hxy : _overlaps x y = true := by
        cases h : _overlaps x y
        · exact absurd h hc
        · rfl
      have := overlaps_mono hxsh hysh hxy
      rw [this] at hfg; exact Bool.true_eq_false.mp hfg

theorem subtractFold_pairwise {bs : List Interval}
    (hbs : ∀ b ∈ bs, b.start < b.stop) {free : List Interval}
    (hp : free.Pairwise (fun i j => _overlaps i j = false)) :
    (subtractFold free bs).Pairwise (fun i j => _overlaps i j = false) := by
  induction bs generalizing free with
  | nil => exact hp
  | cons b rest ih =>
    unfold subtractFold
    exact ih (fun b' hb' => hbs b' (by simp [hb']))
      (splitByBlock_pairwise (hbs b (by simp)) hp)

/-- C2, counterexample to the claim as stated: with the degenerate busy
interval `(5, 3)` (end before start), `_subtract` of base `[0, 10)` returns
`[0, 5)` and `[3, 10)`, which overlap each other — the output is not a list
of pairwise-disjoint intervals for arbitrary busy lists. -/
theorem c2_subtract_counterexample :
    _subtract ⟨0, 10⟩ [⟨5, 3⟩] = [⟨0, 5⟩, ⟨3, 10⟩] ∧
      _overlaps ⟨0, 5⟩ ⟨3, 10⟩ = true := by decide

/-- C2 (amended): for every base interval and every list of busy intervals
each of which is well-formed (`start < end`), `_subtract base busy` returns
pairwise-disjoint intervals, none of which overlaps any busy interval, whose
union is exactly the set of points of `base` not covered by any busy
interval; every interval with `end ≤ start` is dropped from the output.
(Without the well-formedness hypothesis the disjointness conjunct fails,
see `c2_subtract_counterexample`; the other three conjuncts hold anyway.) -/
theorem c2_subtract_correct (base : Interval) (busy : List Interval)
    (hwf : ∀ b ∈ busy, b.start < b.stop) :
    (_subtract base busy).Pairwise (fun i j => _overlaps i j = false)
    ∧ (∀ i ∈ _subtract base busy, ∀ b ∈ busy, _overlaps i b = false)
    ∧ (∀ t : Int, (∃ i ∈ _subtract base busy, memI t i) ↔
        (memI t base ∧ ∀ b ∈ busy, ¬ memI t b))
    ∧ (∀ i ∈ _subtract base busy, i.start < i.stop) := by
  have hperm : ∀ b : Interval, b ∈ sortByStart busy ↔ b ∈ busy := fun b =>
    (List.perm_insertionSort (fun a b => a.start ≤ b.start) busy).mem_iff
  refine ⟨?_, ?_, ?_, ?_⟩
  · have hp : (subtractFold [base] (sortByStart busy)).Pairwise
        (fun i j => _overlaps i j = false) :=
      subtractFold_pairwise (fun b hb => hwf b ((hperm b).mp hb)) (by simp)
    exact hp.sublist (List.filter_sublist _)
  · intro i hi b hb
    exact subtractFold_no_overlap ((hperm b).mpr hb) (List.mem_of_mem_filter hi)
  · intro t
    have hiff : (∃ i ∈ _subtract base busy, memI t i) ↔
        ∃ i ∈ subtractFold [base] (sortByStart busy), memI t i := by
      constructor
      · rintro ⟨i, hi, hm⟩; exact ⟨i, List.mem_of_mem_filter hi, hm⟩
      · rintro ⟨i, hi, hm⟩
        refine ⟨i, List.mem_filter.mpr ⟨hi, ?_⟩, hm⟩
        have := hm.1.trans_lt hm.2
        simpa using this
    rw [hiff, mem_subtractFold_iff]
    constructor
    · rintro ⟨⟨i, hi, hm⟩, hall⟩
      simp at hi; subst hi
      exact ⟨hm, fun b hb => hall b ((hperm b).mpr hb)⟩
    · rintro ⟨hm, hall⟩
      exact ⟨⟨base, by simp, hm⟩, fun b hb => hall b ((hperm b).mp hb)⟩
  · intro i hi
    have := List.of_mem_filter hi
    simpa using this

/-- C2 amended-claim witness at base `[0, 10)`, busy `[[2, 4)]`. -/
theorem c2_subtract_correct_witness :
    (∀ b ∈ [(⟨2, 4⟩ : Interval)], b.start < b.stop) ∧
      ((_subtract ⟨0, 10⟩ [⟨2, 4⟩]).Pairwise (fun i j => _overlaps i j = false)
      ∧ (∀ i ∈ _subtract ⟨0, 10⟩ [⟨2, 4⟩], ∀ b ∈ [(⟨2, 4⟩ : Interval)],
          _overlaps i b = false)
      ∧ (∀ t : Int, (∃ i ∈ _subtract ⟨0, 10⟩ [⟨2, 4⟩], memI t i) ↔
          (memI t ⟨0, 10⟩ ∧ ∀ b ∈ [(⟨2, 4⟩ : Interval)], ¬ memI t b))
      ∧ (∀ i ∈ _subtract ⟨0, 10⟩ [⟨2, 4⟩], i.start < i.stop)) :=
  ⟨by decide, c2_subtract_correct ⟨0, 10⟩ [⟨2, 4⟩] (by decide)⟩
theorem splitLoop_exact {d ivEnd limit : Int} (hd : 0 < d) :
    ∀ (n : Nat) (fuel : Nat) (cur : Int) (out : List Interval),
      n < fuel → (out.length : Int) + n < limit →
      cur + n * d ≤ ivEnd → ivEnd < cur + (n + 1) * d →
      splitLoop d ivEnd limit fuel cur out = (out ++ slotsFrom cur d n, false) := by
  intro n
  induction n with
  | zero =>
    intro fuel cur out hfuel _ _ hend
    obtain ⟨fuel', rfl⟩ : ∃ fuel', fuel = fuel' + 1 := ⟨fuel - 1, by omega⟩
    unfold splitLoop
    have hcond : ¬ (cur + d ≤ ivEnd) := by
      push_cast at hend; omega
    simp [hcond, slotsFrom]
  | succ n ih =>
    intro fuel cur out hfuel hlim hle hend
    obtain ⟨fuel', rfl⟩ : ∃ fuel', fuel = fuel' + 1 := ⟨fuel - 1, by omega⟩
    unfold splitLoop
    have hnd : (0 : Int) ≤ (n : Int) * d :=
      mul_nonneg (Int.natCast_nonneg n) (le_of_lt hd)
    have hcond : cur + d ≤ ivEnd := by
      push_cast at hle; nlinarith
    have hlen : ¬ (limit ≤ (((out ++ [(⟨cur, cur + d⟩ : Interval)]).length : Nat) : Int)) := by
      simp only [List.length_append, List.length_cons, List.length_nil]
      push_cast at hlim ⊢; omega
    simp only [hcond, if_true, hlen, if_false]
    have hrec := ih fuel' (cur + d) (out ++ [⟨cur, cur + d⟩])
      (by omega)
      (by simp only [List.length_append, List.length_cons, List.length_nil]
          push_cast at hlim ⊢; omega)
      (by push_cast at hle ⊢; ring_nf; ring_nf at hle; linarith)
      (by push_cast at hend ⊢; ring_nf; ring_nf at hend; linarith)
    rw [hrec]
    simp [slotsFrom, List.append_assoc]

/-- Every slot the loop adds beyond `out` sits on the back-to-back grid
`cur, cur+d, cur+2d, …` and satisfies `slot.stop = slot.start + d ≤ ivEnd`. -/
theorem splitLoop_shape {d ivEnd limit : Int} :
    ∀ (fuel : Nat) (cur : Int) (out : List Interval) (slot : Interval),
      slot ∈ (splitLoop d ivEnd limit fuel cur out).1 →
      slot ∈ out ∨ ∃ k : Nat, slot.start = cur + k * d ∧
        slot.stop = slot.start + d ∧ slot.stop ≤ ivEnd := by
  intro fuel
  induction fuel with
  | zero => intro cur out slot h; exact Or.inl h
  | succ fuel ih =>
    intro cur out slot h
    unfold splitLoop at h
    by_cases hcond : cur + d ≤ ivEnd
    · simp only [hcond, if_true] at h
      by_cases hlen : limit ≤ (((out ++ [(⟨cur, cur + d⟩ : Interval)]).length : Nat) : Int)
      · simp only [hlen, if_true] at h
        rcases List.mem_append.mp h with h1 | h2
        · exact Or.inl h1
        · simp at h2; subst h2
          exact Or.inr ⟨0, by simp, rfl, by simpa using hcond⟩
      · simp only [hlen, if_false] at h
        rcases ih (cur + d) (out ++ [(⟨cur, cur + d⟩ : Interval)]) slot h with h1 | ⟨k, hk⟩
        · rcases List.mem_append.mp h1 with ha | hb
          · exact Or.inl ha
          · simp at hb; subst hb
            exact Or.inr ⟨0, by simp, rfl, by simpa using hcond⟩
        · refine Or.inr ⟨k + 1, ?_, hk.2.1, hk.2.2⟩
          rw [hk.1]; push_cast; ring
    · simp only [hcond, if_false] at h
      exact Or.inl h

theorem splitGo_shape {d limit : Int} :
    ∀ (ivs : List Interval) (out : List Interval) (slot : Interval),
      slot ∈ splitGo d limit ivs out →
      slot ∈ out ∨ ∃ iv ∈ ivs, ∃ k : Nat, slot.start = iv.start + k * d ∧
        slot.stop = slot.start + d ∧ slot.stop ≤ iv.stop := by
  intro ivs
  induction ivs with
  | nil => intro out slot h; exact Or.inl h
  | cons iv rest ih =>
    intro out slot h
    unfold splitGo at h
    by_cases hstop : (splitLoop d iv.stop limit (splitFuel iv) iv.start out).2
    · simp only [hstop, if_true] at h
      rcases splitLoop_shape _ _ _ _ h with h1 | ⟨k, hk⟩
      · exact Or.inl h1
      · exact Or.inr ⟨iv, by simp, k, hk⟩
    · simp only [hstop, if_false] at h
      rcases ih _ slot h with h1 | ⟨iv', hiv', hk⟩
      · rcases splitLoop_shape _ _ _ _ h1 with h2 | ⟨k, hk⟩
        · exact Or.inl h2
        · exact Or.inr ⟨iv, by simp, k, hk⟩
      · exact Or.inr ⟨iv', by simp [hiv'], hk⟩

theorem splitLoop_length {d ivEnd limit : Int} :
    ∀ (fuel : Nat) (cur : Int) (out : List Interval),
      (out.length : Int) < limit →
      ((((splitLoop d ivEnd limit fuel cur out).1.length : Int) ≤ limit) ∧
        ((splitLoop d ivEnd limit fuel cur out).2 = false →
          ((splitLoop d ivEnd limit fuel cur out).1.length : Int) < limit)) := by
  intro fuel
  induction fuel with
  | zero => intro cur out h; exact ⟨le_of_lt h, fun _ => h⟩
  | succ fuel ih =>
    intro cur out h
    unfold splitLoop
    by_cases hcond : cur + d ≤ ivEnd
    · by_cases hlen : limit ≤ (((out ++ [(⟨cur, cur + d⟩ : Interval)]).length : Nat) : Int)
      · simp only [hcond, if_true, hlen]
        constructor
        · simp only [List.length_append, List.length_cons, List.length_nil]
          push_cast
          omega
        · intro hfalse; exact absurd hfalse (by simp)
      · simp only [hcond, if_true, hlen, if_false]
        exact ih (cur + d) _ (lt_of_not_le hlen)
    · simp only [hcond, if_false]
      exact ⟨le_of_lt h, fun _ => h⟩

theorem splitGo_length {d limit : Int} :
    ∀ (ivs : List Interval) (out : List Interval),
      (out.length : Int) < limit →
      ((splitGo d limit ivs out).length : Int) ≤ limit := by
  intro ivs
  induction ivs with
  | nil => intro out h; exact le_of_lt h
  | cons iv rest ih =>
    intro out h
    unfold splitGo
    by_cases hstop : (splitLoop d iv.stop limit (splitFuel iv) iv.start out).2
    · simp only [hstop, if_true]
      exact (splitLoop_length _ _ _ h).1
    · simp only [hstop, if_false]
      exact ih _ ((splitLoop_length _ _ _ h).2 (by simpa using hstop))

/-- C3: for every list of free intervals and positive duration and limit,
`_split_into_slots` emits only slots of exactly the given duration lying on
the back-to-back grid `iv.start, iv.start + d, iv.start + 2d, …` of some
input interval, emits a slot only while `cursor + duration ≤ interval.end`,
never emits more than `limit` slots; and on a single free interval of
length exactly `3 × duration` with `limit = 10` it yields exactly the three
back-to-back slots of exactly `duration` length. -/
theorem c3_split_into_slots (ivs : List Interval) (d limit : Int)
    (hd : 0 < d) (hl : 0 < limit) :
    ((_split_into_slots ivs d limit).length : Int) ≤ limit
    ∧ (∀ slot ∈ _split_into_slots ivs d limit, ∃ iv ∈ ivs, ∃ k : Nat,
        slot.start = iv.start + k * d ∧ slot.stop = slot.start + d ∧
        slot.stop ≤ iv.stop)
    ∧ (∀ s : Int, _split_into_slots [⟨s, s + 3 * d⟩] d 10 =
        [⟨s, s + d⟩, ⟨s + d, s + 2 * d⟩, ⟨s + 2 * d, s + 3 * d⟩]) := by
  refine ⟨?_, ?_, ?_⟩
  · exact splitGo_length ivs [] (by simpa using hl)
  · intro slot hs
    rcases splitGo_shape ivs [] slot hs with h | h
    · simp at h
    · exact h
  · intro s
    have hfuel3 : 3 < splitFuel ⟨s, s + 3 * d⟩ := by
      unfold splitFuel; dsimp only; omega
    have hexact : splitLoop d (s + 3 * d) 10 (splitFuel ⟨s, s + 3 * d⟩) s [] =
        ([] ++ slotsFrom s d 3, false) :=
      splitLoop_exact hd 3 _ s [] hfuel3 (by norm_num)
        (by push_cast; omega) (by push_cast; omega)
    have hsf : ∀ cur : Int, slotsFrom cur d 3 =
        [⟨cur, cur + d⟩, ⟨cur + d, cur + d + d⟩, ⟨cur + d + d, cur + d + d + d⟩] :=
      fun _ => rfl
    unfold _split_into_slots splitGo
    dsimp only
    rw [hexact]
    dsimp only
    unfold splitGo
    rw [List.nil_append, hsf]
    simp only [if_false, Bool.false_eq_true, Interval.mk.injEq, List.cons.injEq,
      List.nil_eq, and_true, true_and]
    omega

/-- C3 witness at `ivs = [[0, 30)]`, `d = 10`, `limit = 2`. -/
theorem c3_split_into_slots_witness :
    ((_split_into_slots [⟨0, 30⟩] 10 2).length : Int) ≤ 2
    ∧ (∀ slot ∈ _split_into_slots [⟨0, 30⟩] 10 2,
        ∃ iv ∈ [(⟨0, 30⟩ : Interval)], ∃ k : Nat,
        slot.start = iv.start + k * 10 ∧ slot.stop = slot.start + 10 ∧
        slot.stop ≤ iv.stop)
    ∧ (∀ s : Int, _split_into_slots [⟨s, s + 3 * 10⟩] 10 10 =
        [⟨s, s + 10⟩, ⟨s + 10, s + 2 * 10⟩, ⟨s + 2 * 10, s + 3 * 10⟩]) :=
  c3_split_into_slots [⟨0, 30⟩] 10 2 (by decide) (by decide)

-- ---------------------------------------------------------------------------
-- C5 / C7: `get_available_times` output shape
-- ---------------------------------------------------------------------------

theorem availLoop_mem (shifts : List TechShiftR) (busyOf : TechR → List Interval)
    (start_h end_h duration limit : Int) (source : String) :
    ∀ (techs : List TechR) (results : List SlotSuggestion) (s : SlotSuggestion),
      s ∈ availLoop shifts busyOf start_h end_h duration limit source techs results →
      s ∈ results ∨ s.source = source := by
  intro techs
  induction techs with
  | nil => intro results s hs; exact Or.inl hs
  | cons t rest ih =>
    intro results s hs
    unfold availLoop at hs
    by_cases hemp : (shifts.filter (fun sh => sh.tech_id == t.id)).isEmpty
    · simp only [hemp, if_true] at hs
      exact ih results s hs
    · simp only [hemp, if_false] at hs
      set results2 := results ++ (_split_into_slots
        (sortByStart (((shifts.filter (fun sh => sh.tech_id == t.id)).map
          (fun sh => (⟨max sh.start_ts start_h, min sh.end_ts end_h⟩ : Interval))).foldr
            (fun base acc => _subtract base (busyOf t) ++ acc) []))
        duration (max 0 (limit - (results.length : Int)))).map
          (fun sl => (⟨t.id, sl.start, sl.stop, source⟩ : SlotSuggestion)) with hr2
      have hres2 : ∀ x ∈ results2, x ∈ results ∨ x.source = source := by
        intro x hx
        rw [hr2] at hx
        rcases List.mem_append.mp hx with h | h
        · exact Or.inl h
        · obtain ⟨sl, _, rfl⟩ := List.mem_map.mp h
          exact Or.inr rfl
      by_cases hlim : limit ≤ (results2.length : Int)
      · rw [if_pos hlim] at hs
        exact hres2 s hs
      · rw [if_neg hlim] at hs
        rcases ih results2 s hs with h | h
        · exact hres2 s h
        · exact Or.inr h

/-- C5, counterexample to the claim as stated: with Google busy data not
requested, the returned slot's `source` is the literal `"db"`, not
`"internal"` (and with it requested the literal is `"db+google"`, not
`"internal+external"`, even when no technician has an external calendar to
consult). -/
theorem c5_source_counterexample :
    get_available_times dbPlumbing gcalEmpty 0 "plumbing" 120 RequestPriority.P3
        (some 0) none 20 false = [⟨0, 0, 7200, "db"⟩]
    ∧ "db" ≠ "internal" :=
  ⟨rfl, by decide⟩

/-- C5 (amended): every slot returned by `get_available_times` carries
`source = "db+google"` when `respect_google_busy` is set and `source =
"db"` otherwise — the field records whether external-calendar data was
*requested*, not whether any external calendar was actually consulted. -/
theorem c5_source_records_flag (db : DBState) (gcal : String → List Interval)
    (now : Int) (skill : String) (duration_min : Int)
    (priority : RequestPriority) (date_from date_to : Option Int) (limit : Int)
    (respect_google_busy : Bool) :
    ∀ s ∈ get_available_times db gcal now skill duration_min priority date_from
        date_to limit respect_google_busy,
      s.source = if respect_google_busy then "db+google" else "db" := by
  intro s hs
  unfold get_available_times at hs
  dsimp only at hs
  repeat' split at hs
  all_goals try exact absurd hs (List.not_mem_nil s)
  all_goals
    unfold sortSuggestions at hs
  all_goals
    rcases availLoop_mem _ _ _ _ _ _ _ _ [] s
        ((List.perm_insertionSort (fun a b : SlotSuggestion => a.start ≤ b.start)
          _).mem_iff.mp hs) with h | h
  all_goals try exact absurd h (List.not_mem_nil s)
  all_goals rw [h]
  all_goals simp_all

/-- C5 amended-claim witness: the single slot of the "plumbing"
environment queried without Google busy data carries `source = "db"`. -/
theorem c5_source_records_flag_witness :
    (⟨0, 0, 7200, "db"⟩ : SlotSuggestion).source =
      if false then "db+google" else "db" :=
  c5_source_records_flag dbPlumbing gcalEmpty 0 "plumbing" 120
    RequestPriority.P3 (some 0) none 20 false ⟨0, 0, 7200, "db"⟩ (by decide)

/-- C7, counterexample to the claim as stated: the skill string `"%"` is
not a case-insensitive (exact) match of any registered skill, yet the
query returns a non-empty slot list — the code passes the raw skill string
to `ILIKE` (schedule_service.py line 129), whose `%` wildcard matches
every registered name, so the claimed empty result fails. -/
theorem c7_wildcard_counterexample :
    (∀ sk ∈ dbPlumbing.skills, lowerChars sk.name ≠ lowerChars "%")
    ∧ get_available_times dbPlumbing gcalEmpty 0 "%" 120 RequestPriority.P3
        (some 0) none 20 false = [⟨0, 0, 7200, "db"⟩] :=
  ⟨by decide, rfl⟩

/-- C7 (amended): non-positive duration, non-positive limit, or a skill
that ILIKE-matches no registered skill — the skill string is used as a
case-insensitive SQL pattern (`%` matching any sequence, `_` any single
character), not compared for exact equality — makes `get_available_times`
return the empty list (it raises nothing: the embedded function is total
and these are its first early returns). -/
theorem c7_invalid_inputs_empty (db : DBState) (gcal : String → List Interval)
    (now : Int) (skill : String) (duration_min : Int)
    (priority : RequestPriority) (date_from date_to : Option Int) (limit : Int)
    (respect_google_busy : Bool)
    (h : duration_min ≤ 0 ∨ limit ≤ 0 ∨
      ∀ sk ∈ db.skills, ilikeMatch sk.name skill = false) :
    get_available_times db gcal now skill duration_min priority date_from
      date_to limit respect_google_busy = [] := by
  unfold get_available_times
  by_cases h1 : duration_min ≤ 0 ∨ limit ≤ 0
  · simp [h1]
  · rcases h with h | h | h
    · exact absurd (Or.inl h) h1
    · exact absurd (Or.inr h) h1
    · simp only [h1, if_false]
      have hnone : db.skills.find? (fun sk => ilikeMatch sk.name skill) = none :=
        List.find?_eq_none.mpr (fun x hx => by simp [h x hx])
      rw [hnone]

/-- C7 amended-claim witness: a negative duration yields the empty list,
and so does the skill `"welding"`, which ILIKE-matches no registered
skill of the "plumbing" environment. -/
theorem c7_invalid_inputs_empty_witness :
    get_available_times dbPlumbing gcalEmpty 0 "plumbing" (-1) RequestPriority.P3
      none none 20 true = []
    ∧ get_available_times dbPlumbing gcalEmpty 0 "welding" 120 RequestPriority.P3
      none none 20 true = [] :=
  ⟨c7_invalid_inputs_empty dbPlumbing gcalEmpty 0 "plumbing" (-1)
      RequestPriority.P3 none none 20 true (Or.inl (by decide)),
    c7_invalid_inputs_empty dbPlumbing gcalEmpty 0 "welding" 120
      RequestPriority.P3 none none 20 true (Or.inr (Or.inr (by decide)))⟩

-- ---------------------------------------------------------------------------
-- C6: the "soonest available" convenience variant
-- ---------------------------------------------------------------------------

/-- C6, counterexample to the claim as stated: the variant hard-codes the
skill `"drain"` (tools_schedule.py line 72), so for the requested skill
`"plumbing"` it signals no availability even though an earliest slot for
`"plumbing"`-eligible technicians exists inside the exact 7-day horizon it
was asked to search. -/
theorem c6_nearest_counterexample :
    get_nearest_available_time dbPlumbing gcalEmpty 0 "plumbing" 120
        RequestPriority.P3 (some 0) false = none
    ∧ get_available_times dbPlumbing gcalEmpty 0 "plumbing" 120
        RequestPriority.P3 (some 0) (some (7 * 86400)) 200 false =
      [⟨0, 0, 7200, "db"⟩] :=
  ⟨rfl, rfl⟩

/-- C6 (amended): `get_nearest_available_time` ignores the requested skill
and always searches the hard-coded skill `"drain"`, over the fixed 7-day
horizon from the given instant, collecting at most 200 candidates; it
returns `none` exactly when that query is empty, and otherwise the
earliest slot of the collected candidate list. -/
theorem c6_nearest_drain (db : DBState) (gcal : String → List Interval)
    (now : Int) (skill : String) (duration_min : Int) (pr : RequestPriority)
    (after : Option Int) (respect_google_busy : Bool) :
    (get_nearest_available_time db gcal now skill duration_min pr after
        respect_google_busy =
      get_nearest_available_time db gcal now "drain" duration_min pr after
        respect_google_busy)
    ∧ (get_nearest_available_time db gcal now skill duration_min pr after
          respect_google_busy = none ↔
        get_available_times db gcal now "drain" (max 1 duration_min) pr
          (some (after.getD now)) (some (after.getD now + 7 * 86400)) 200
          respect_google_busy = [])
    ∧ (∀ s, get_nearest_available_time db gcal now skill duration_min pr after
          respect_google_busy = some s →
        s ∈ get_available_times db gcal now "drain" (max 1 duration_min) pr
            (some (after.getD now)) (some (after.getD now + 7 * 86400)) 200
            respect_google_busy
        ∧ ∀ s' ∈ get_available_times db gcal now "drain" (max 1 duration_min) pr
            (some (after.getD now)) (some (after.getD now + 7 * 86400)) 200
            respect_google_busy,
          s.start ≤ s'.start) := by
  refine ⟨rfl, ?_, ?_⟩
  · unfold get_nearest_available_time
    by_cases hemp : (get_available_times db gcal now "drain" (max 1 duration_min)
        pr (some (after.getD now)) (some (after.getD now + 7 * 86400)) 200
        respect_google_busy).isEmpty
    · simp only [hemp, if_true]
      exact iff_of_true (by trivial) (List.isEmpty_iff.mp hemp)
    · simp only [hemp, if_false]
      constructor
      · intro hh
        have := List.head?_eq_none_iff.mp hh
        unfold sortSuggestions at this
        have hlen := (List.perm_insertionSort
          (fun a b : SlotSuggestion => a.start ≤ b.start)
          (get_available_times db gcal now "drain" (max 1 duration_min) pr
            (some (after.getD now)) (some (after.getD now + 7 * 86400)) 200
            respect_google_busy)).length_eq
        rw [this] at hlen
        exact List.eq_nil_of_length_eq_zero hlen.symm
      · intro hh
        rw [hh] at hemp
        simp at hemp
  · intro s hsome
    unfold get_nearest_available_time at hsome
    by_cases hemp : (get_available_times db gcal now "drain" (max 1 duration_min)
        pr (some (after.getD now)) (some (after.getD now + 7 * 86400)) 200
        respect_google_busy).isEmpty
    · simp only [hemp, if_true] at hsome
      exact Option.noConfusion hsome
    · simp only [hemp, if_false] at hsome
      have hsorted := List.sorted_insertionSort
        (fun a b : SlotSuggestion => a.start ≤ b.start)
        (get_available_times db gcal now "drain" (max 1 duration_min) pr
          (some (after.getD now)) (some (after.getD now + 7 * 86400)) 200
          respect_google_busy)
      have hperm := List.perm_insertionSort
        (fun a b : SlotSuggestion => a.start ≤ b.start)
        (get_available_times db gcal now "drain" (max 1 duration_min) pr
          (some (after.getD now)) (some (after.getD now + 7 * 86400)) 200
          respect_google_busy)
      unfold sortSuggestions at hsome
      obtain ⟨tl, htl⟩ : ∃ tl, List.insertionSort
          (fun a b : SlotSuggestion => a.start ≤ b.start)
          (get_available_times db gcal now "drain" (max 1 duration_min) pr
            (some (after.getD now)) (some (after.getD now + 7 * 86400)) 200
            respect_google_busy) = s :: tl := by
        cases hsort : List.insertionSort
            (fun a b : SlotSuggestion => a.start ≤ b.start)
            (get_available_times db gcal now "drain" (max 1 duration_min) pr
              (some (after.getD now)) (some (after.getD now + 7 * 86400)) 200
              respect_google_busy) with
        | nil => rw [hsort] at hsome; simp at hsome
        | cons hd tl =>
          rw [hsort] at hsome
          simp at hsome
          exact ⟨tl, by rw [hsome]⟩
      constructor
      · exact hperm.mem_iff.mp (by rw [htl]; simp)
      · intro s' hs'
        have hs'sorted := hperm.mem_iff.mpr hs'
        rw [htl] at hs'sorted hsorted
        rcases List.mem_cons.mp hs'sorted with h | h
        · subst h; exact le_refl _
        · exact List.rel_of_sorted_cons hsorted s' h

/-- C6 amended-claim witness: in the "drain" environment the variant
returns the slot `[0, 7200)` of technician 0, which is a member of (and
the earliest of) the collected candidate list. -/
theorem c6_nearest_drain_witness :
    (⟨0, 0, 7200, "db"⟩ : SlotSuggestion) ∈ get_available_times dbDrain gcalEmpty
        0 "drain" (max 1 120) RequestPriority.P3 (some 0) (some (0 + 7 * 86400))
        200 false
    ∧ ∀ s' ∈ get_available_times dbDrain gcalEmpty 0 "drain" (max 1 120)
        RequestPriority.P3 (some 0) (some (0 + 7 * 86400)) 200 false,
      (⟨0, 0, 7200, "db"⟩ : SlotSuggestion).start ≤ s'.start :=
  (c6_nearest_drain dbDrain gcalEmpty 0 "plumbing" 120 RequestPriority.P3
    (some 0) false).2.2 ⟨0, 0, 7200, "db"⟩ rfl

-- ---------------------------------------------------------------------------
-- C4: hold expiry
-- ---------------------------------------------------------------------------

/-- C4, counterexample to the claim as stated: with `ttl_seconds = 0`,
`now = 0` and `end = 100` the hold is created with `expires_at = 1`
(`min(end, now + max(1, ttl_seconds))`), not `min(end, now + ttl_seconds)
= 0` as the claim requires for every `ttl_seconds` value. -/
theorem c4_expires_counterexample :
    (hold_slot dbOneUserOneTech 0 0 none 10 100 0 none false).2 =
      Except.ok ⟨1, 0, 10, 100, 1⟩
    ∧ (1 : Int) ≠ min 100 (0 + 0) :=
  ⟨rfl, by decide⟩

/-- C4 (amended): every successful `hold_slot` call persists a hold with
`expires_at = min(end, now + max(1, ttl_seconds))` — the TTL is clamped to
at least one second — and in particular `expires_at` never exceeds the
hold's `end`. -/
theorem c4_hold_expires (st : DBState) (now : Int) (tech_id : Nat)
    (user_id : Option Nat) (start stop ttl_seconds : Int)
    (request_text : Option String) :
    (hold_slot st now tech_id user_id start stop ttl_seconds request_text
        false).1.holds
      = st.holds ++ [⟨st.next_id, tech_id, user_id, start, stop,
          min stop (now + max 1 ttl_seconds), request_text⟩]
    ∧ min stop (now + max 1 ttl_seconds) ≤ stop :=
  ⟨rfl, min_le_left _ _⟩

-- ---------------------------------------------------------------------------
-- C1: the storage-level no-overlap invariant
-- ---------------------------------------------------------------------------

/-- C1: the claim is violated by the code.  The schema in db/models.py
(created verbatim by `init_db`'s `create_all`) contains no exclusion
constraint on `holds` or `appointments` — only plain indexes — and
`hold_slot` performs no application-level overlap check either, so the
insert of a second, identical live hold for the same technician raises
nothing (`dbFault = false`: the foreign keys are satisfied and no declared
constraint is violated).  Both calls succeed and the resulting state has
two overlapping live holds for technician 0, falsifying the §3 invariant;
the claim (and `hold_slot`'s own docstring, "add EXCLUDE in migrations" —
no migration exists in the repository) requires the second call to fail
with a Conflict error instead. -/
theorem c1_overlap_not_prevented :
    (hold_slot dbOneUserOneTech 0 0 (some 0) 1000 2000 300 none false).2 =
      Except.ok ⟨1, 0, 1000, 2000, 300⟩
    ∧ (hold_slot (hold_slot dbOneUserOneTech 0 0 (some 0) 1000 2000 300 none
          false).1 0 0 (some 0) 1000 2000 300 none false).2 =
      Except.ok ⟨2, 0, 1000, 2000, 300⟩
    ∧ ¬ noOverlapInvariant
        (hold_slot (hold_slot dbOneUserOneTech 0 0 (some 0) 1000 2000 300 none
          false).1 0 0 (some 0) 1000 2000 300 none false).1 0 := by
  refine ⟨rfl, rfl, ?_⟩
  decide

-- ---------------------------------------------------------------------------
-- C8: reference resolution in `read_meeting`
-- ---------------------------------------------------------------------------

/-- C8: `read_meeting` resolves its reference by first attempting the
public-number parse (`#?(\d+)` on the stripped string) and lookup, then
falling back to the UUID parse and primary-key lookup; it fails with
NotFound exactly when neither resolution yields an appointment. -/
theorem c8_read_meeting_resolution (appts : List ApptR)
    (uuidParse : List Char → Option Nat) (ref : String) :
    (read_meeting appts uuidParse ref = Except.error Err.notFound ↔
      lookupByNo appts (pyStrip ref.data) = none ∧
        lookupByUuid appts uuidParse (pyStrip ref.data) = none)
    ∧ (∀ a, lookupByNo appts (pyStrip ref.data) = some a →
        read_meeting appts uuidParse ref = Except.ok a)
    ∧ (∀ a, lookupByNo appts (pyStrip ref.data) = none →
        lookupByUuid appts uuidParse (pyStrip ref.data) = some a →
        read_meeting appts uuidParse ref = Except.ok a) := by
  unfold read_meeting
  have hres : _resolve_appointment appts uuidParse ref =
      match lookupByNo appts (pyStrip ref.data) with
      | some appt => some appt
      | none => lookupByUuid appts uuidParse (pyStrip ref.data) := rfl
  rw [hres]
  cases hno : lookupByNo appts (pyStrip ref.data) with
  | some a =>
    refine ⟨by simp, ?_, ?_⟩
    · intro a' ha'
      cases ha'
      rfl
    · intro a' ha' _
      cases ha'
  | none =>
    cases huu : lookupByUuid appts uuidParse (pyStrip ref.data) with
    | some a =>
      refine ⟨by simp, ?_, ?_⟩
      · intro a' ha'
        cases ha'
      · intro a' _ ha'
        cases ha'
        rfl
    | none =>
      refine ⟨by simp, ?_, ?_⟩
      · intro a' ha'
        cases ha'
      · intro a' _ ha'
        cases ha'

/-- C8 witness: the reference `" #5 "` (whitespace and `#` prefix) resolves
by public number to the sample appointment, and an unresolvable reference
fails with NotFound. -/
theorem c8_read_meeting_resolution_witness :
    read_meeting [apptSample] uuidParseNone " #5 " = Except.ok apptSample
    ∧ read_meeting [apptSample] uuidParseNone "nope" =
        Except.error Err.notFound :=
  ⟨(c8_read_meeting_resolution [apptSample] uuidParseNone " #5 ").2.1
      apptSample rfl,
    (c8_read_meeting_resolution [apptSample] uuidParseNone "nope").1.mpr
      ⟨rfl, rfl⟩⟩

-- ---------------------------------------------------------------------------
-- C10: `create_meeting` guards and rollback
-- ---------------------------------------------------------------------------

/-- C10: `create_meeting` checks that the user exists and then that the
technician exists before constructing the appointment — a missing one
yields a not-found error with the state unchanged — and a failure of the
insert itself (`dbFault`) is rolled back, also leaving the state
unchanged. -/
theorem c10_create_meeting_guards (st : DBState) (user_id tech_id : Nat)
    (start stop : Int) (priority : RequestPriority)
    (request_text : Option String) (dbFault : Bool) :
    ((st.users.find? (fun u => u.id == user_id) = none ∨
        st.techs.find? (fun t => t.id == tech_id) = none) →
      create_meeting st user_id tech_id start stop priority request_text dbFault
        = (st, Except.error Err.notFound))
    ∧ (∀ u t, st.users.find? (fun x => x.id == user_id) = some u →
        st.techs.find? (fun x => x.id == tech_id) = some t →
        dbFault = true →
        create_meeting st user_id tech_id start stop priority request_text
          dbFault = (st, Except.error Err.conflict))
    ∧ (∀ e, (create_meeting st user_id tech_id start stop priority request_text
          dbFault).2 = Except.error e →
        (create_meeting st user_id tech_id start stop priority request_text
          dbFault).1 = st) := by
  unfold create_meeting
  cases hu : st.users.find? (fun u => u.id == user_id) with
  | none =>
    refine ⟨fun _ => rfl, ?_, fun e _ => rfl⟩
    intro u t hu' ht' hf
    cases hu'
  | some u =>
    cases ht : st.techs.find? (fun t => t.id == tech_id) with
    | none =>
      refine ⟨fun _ => rfl, ?_, fun e _ => rfl⟩
      intro u' t hu' ht' hf
      cases ht'
    | some t =>
      refine ⟨?_, ?_, ?_⟩
      · rintro (h | h) <;> cases h
      · intro u' t' hu' ht' hf
        cases hu'
        cases ht'
        subst hf
        rfl
      · intro e he
        cases dbFault with
        | true => rfl
        | false => exact absurd he (by simp)

/-- C10 witness: in the one-user/one-tech environment, creating a meeting
for the unknown user 99 fails with NotFound and leaves the state
unchanged, and a faulted insert for the valid pair (0, 0) is rolled
back. -/
theorem c10_create_meeting_guards_witness :
    create_meeting dbOneUserOneTech 99 0 0 3600 RequestPriority.P3 none false
      = (dbOneUserOneTech, Except.error Err.notFound)
    ∧ ((create_meeting dbOneUserOneTech 0 0 0 3600 RequestPriority.P3 none
          true).1 = dbOneUserOneTech
        ∧ (create_meeting dbOneUserOneTech 0 0 0 3600 RequestPriority.P3 none
            true).2 = Except.error Err.conflict) :=
  ⟨(c10_create_meeting_guards dbOneUserOneTech 99 0 0 3600 RequestPriority.P3
      none false).1 (Or.inl rfl),
    by
      have := (c10_create_meeting_guards dbOneUserOneTech 0 0 0 3600
        RequestPriority.P3 none true).2.1 ⟨0, "Alice Doe", "+15550000000", none⟩
        ⟨0, "UTC", true, none⟩ rfl rfl rfl
      rw [this]
      exact ⟨rfl, rfl⟩⟩

-- ---------------------------------------------------------------------------
-- C9: bulk shift publishing
-- ---------------------------------------------------------------------------

theorem publishGo_count (localToUtc : Nat → Nat → String → Int) (t : TechR)
    (start_time end_time : Nat) (weekdays : Option (List Nat)) (co : Bool) :
    ∀ (fuel cur : Nat) (st : DBState) (created : Nat),
      (publishGo localToUtc t start_time end_time weekdays co fuel cur st
        created).2 = created + (matchingDays weekdays cur fuel).length := by
  intro fuel
  induction fuel with
  | zero => intro cur st created; simp [publishGo, matchingDays]
  | succ fuel ih =>
    intro cur st created
    unfold publishGo matchingDays
    by_cases hm : weekdayMatch weekdays cur = true
    · rw [if_pos hm, if_pos hm, ih]
      simp only [List.singleton_append, List.length_cons]
      omega
    · rw [if_neg hm, if_neg hm, ih]
      simp

theorem publishGo_shifts (localToUtc : Nat → Nat → String → Int) (t : TechR)
    (start_time end_time : Nat) (weekdays : Option (List Nat)) :
    ∀ (fuel cur : Nat) (st : DBState) (created : Nat),
      (publishGo localToUtc t start_time end_time weekdays false fuel cur st
        created).1.tech_shifts =
      st.tech_shifts ++ (matchingDays weekdays cur fuel).map (fun d =>
        (⟨t.id, localToUtc d start_time t.timezone,
          localToUtc d end_time t.timezone⟩ : TechShiftR)) := by
  intro fuel
  induction fuel with
  | zero => intro cur st created; simp [publishGo, matchingDays]
  | succ fuel ih =>
    intro cur st created
    unfold publishGo matchingDays
    by_cases hm : weekdayMatch weekdays cur = true
    · rw [if_pos hm, if_pos hm]
      dsimp only
      rw [if_neg (by simp)]
      rw [ih]
      simp [_local_range_to_utc, List.append_assoc]
    · rw [if_neg hm, if_neg hm, ih]
      simp

theorem mem_matchingDays (weekdays : Option (List Nat)) :
    ∀ (fuel cur d : Nat), d ∈ matchingDays weekdays cur fuel ↔
      (cur ≤ d ∧ d < cur + fuel ∧ weekdayMatch weekdays d = true) := by
  intro fuel
  induction fuel with
  | zero =>
    intro cur d
    simp only [matchingDays, List.not_mem_nil, false_iff]
    omega
  | succ fuel ih =>
    intro cur d
    unfold matchingDays
    rw [List.mem_append, ih (cur + 1)]
    by_cases hm : weekdayMatch weekdays cur = true
    · rw [if_pos hm]
      simp only [List.mem_singleton]
      constructor
      · rintro (rfl | ⟨h1, h2, h3⟩)
        · exact ⟨le_refl _, by omega, hm⟩
        · exact ⟨by omega, by omega, h3⟩
      · rintro ⟨h1, h2, h3⟩
        by_cases hd : d = cur
        · exact Or.inl hd
        · exact Or.inr ⟨by omega, by omega, h3⟩
    · rw [if_neg hm]
      simp only [List.not_mem_nil, false_or]
      constructor
      · rintro ⟨h1, h2, h3⟩
        exact ⟨by omega, by omega, h3⟩
      · rintro ⟨h1, h2, h3⟩
        refine ⟨?_, by omega, h3⟩
        rcases Nat.eq_or_lt_of_le h1 with rfl | h
        · exact absurd h3 hm
        · omega

/-- C9: `publish_availability_for_range` on an existing technician fails
with InvalidRange exactly when `end_date < start_date` or the local end
time is not after the local start time, and that failure leaves the state
untouched (the checks run before the session opens); with valid ranges it
returns the number of days in `[start_date, end_date]` matching the
weekday filter (every day when the filter is omitted) and — without
overlap clearing — appends exactly one UTC shift row per matching day,
converted through the technician's stored timezone. -/
theorem c9_publish_availability (st : DBState)
    (localToUtc : Nat → Nat → String → Int) (tech_id : Nat)
    (start_date end_date start_time end_time : Nat)
    (weekdays : Option (List Nat)) (clear_overlaps : Bool) (t : TechR)
    (htech : st.techs.find? (fun x => x.id == tech_id) = some t) :
    ((publish_availability_for_range st localToUtc tech_id start_date end_date
        start_time end_time weekdays clear_overlaps).2 =
          Except.error Err.invalidRange
      ↔ (end_date < start_date ∨ end_time ≤ start_time))
    ∧ ((end_date < start_date ∨ end_time ≤ start_time) →
        (publish_availability_for_range st localToUtc tech_id start_date
          end_date start_time end_time weekdays clear_overlaps).1 = st)
    ∧ (¬ (end_date < start_date) → ¬ (end_time ≤ start_time) →
        ((publish_availability_for_range st localToUtc tech_id start_date
            end_date start_time end_time weekdays clear_overlaps).2 =
          Except.ok (matchingDays weekdays start_date
            (end_date + 1 - start_date)).length)
        ∧ (∀ d, d ∈ matchingDays weekdays start_date (end_date + 1 - start_date)
            ↔ (start_date ≤ d ∧ d ≤ end_date ∧
                weekdayMatch weekdays d = true))
        ∧ (clear_overlaps = false →
            (publish_availability_for_range st localToUtc tech_id start_date
              end_date start_time end_time weekdays clear_overlaps).1.tech_shifts
            = st.tech_shifts ++ (matchingDays weekdays start_date
                (end_date + 1 - start_date)).map (fun d =>
                  (⟨t.id, localToUtc d start_time t.timezone,
                    localToUtc d end_time t.timezone⟩ : TechShiftR)))) := by
  unfold publish_availability_for_range
  by_cases hd : end_date < start_date
  · rw [if_pos hd]
    exact ⟨iff_of_true rfl (Or.inl hd), fun _ => rfl,
      fun h _ => absurd hd h⟩
  · rw [if_neg hd]
    by_cases he : end_time ≤ start_time
    · rw [if_pos he]
      exact ⟨iff_of_true rfl (Or.inr he), fun _ => rfl,
        fun _ h => absurd he h⟩
    · rw [if_neg he, htech]
      refine ⟨iff_of_false (by simp) (by tauto), ?_, ?_⟩
      · rintro (h | h)
        · exact absurd h hd
        · exact absurd h he
      · intro _ _
        refine ⟨?_, ?_, ?_⟩
        · dsimp only
          rw [publishGo_count]
          simp
        · intro d
          rw [mem_matchingDays]
          constructor
          · rintro ⟨h1, h2, h3⟩
            exact ⟨h1, by omega, h3⟩
          · rintro ⟨h1, h2, h3⟩
            exact ⟨h1, by omega, h3⟩
        · intro hco
          subst hco
          dsimp only
          rw [publishGo_shifts]

/-- C9 witness: publishing days 10-12 (no weekday filter, no overlap
clearing) for the existing technician 0 creates exactly three shift rows
and returns 3; swapping the clock range to an empty one fails with
InvalidRange and leaves the state unchanged. -/
theorem c9_publish_availability_witness :
    ((publish_availability_for_range dbOneUserOneTech localToUtcFixed 0 10 12
        3600 7200 none false).2 =
      Except.ok (matchingDays none 10 3).length)
    ∧ ((publish_availability_for_range dbOneUserOneTech localToUtcFixed 0 10 12
        3600 7200 none false).1.tech_shifts =
      dbOneUserOneTech.tech_shifts ++ (matchingDays none 10 3).map (fun d =>
        (⟨0, localToUtcFixed d 3600 "UTC",
          localToUtcFixed d 7200 "UTC"⟩ : TechShiftR)))
    ∧ ((publish_availability_for_range dbOneUserOneTech localToUtcFixed 0 10 12
        7200 3600 none false).2 = Except.error Err.invalidRange
        ∧ (publish_availability_for_range dbOneUserOneTech localToUtcFixed 0 10
            12 7200 3600 none false).1 = dbOneUserOneTech) :=
  ⟨((c9_publish_availability dbOneUserOneTech localToUtcFixed 0 10 12 3600 7200
      none false ⟨0, "UTC", true, none⟩ rfl).2.2 (by decide) (by decide)).1,
   ((c9_publish_availability dbOneUserOneTech localToUtcFixed 0 10 12 3600 7200
      none false ⟨0, "UTC", true, none⟩ rfl).2.2 (by decide) (by decide)).2.2 rfl,
   (c9_publish_availability dbOneUserOneTech localToUtcFixed 0 10 12 7200 3600
      none false ⟨0, "UTC", true, none⟩ rfl).1.mpr (Or.inr (by decide)),
   (c9_publish_availability dbOneUserOneTech localToUtcFixed 0 10 12 7200 3600
      none false ⟨0, "UTC", true, none⟩ rfl).2.1 (Or.inr (by decide))⟩

end Sched
